import Mathlib

/-!
# RText buffer engine — shallow embedding

A shallow embedding of the text-buffer core of the RText editor
(`src/row.rs`, `src/document.rs`, `src/filetype.rs`), with theorems
settling the specification claims about it.

Modelling conventions:

* Rust `char` is modelled as a `Nat` code point; Rust `String` / `&str`
  as `List Nat` of code points.  The source addresses substring hits
  by byte offset (`str::find` / `grapheme_indices`); since byte offsets
  of character boundaries are in monotone bijection with code-point
  offsets, we model those offsets as code-point offsets, which preserves
  exactly the "match offset coincides with a cluster start" structure the
  code relies on.
* The source segments strings into Unicode grapheme clusters via the
  `unicode_segmentation` crate (UAX #29).  We model the
  grapheme-cluster-break property on the fragment of code points
  exercised here — C0 controls / CR / LF, the combining diacritical
  marks U+0300–U+036F as Extend, and ZWJ — together with the pairwise
  core rules GB3, GB4, GB5, GB9 and GB999.  All universally quantified
  theorems below hold for any pairwise break relation; the concrete
  table only matters for the concrete counterexample inputs.
* File IO in `Document::open` is abstracted: the function receives the
  file name and the already-split list of lines.
-/

namespace RText

/-! ## Grapheme segmentation model -/

/-- Grapheme-cluster-break property classes of the code points in the
modelled fragment of UAX #29. -/
inductive GcbClass where
  | control
  | cr
  | lf
  | extend
  | zwj
  | other
deriving DecidableEq, Repr

/-- Grapheme-cluster-break class of a code point (modelled fragment:
C0 controls and DEL, CR, LF, combining diacritical marks U+0300–U+036F
as Extend, U+200D as ZWJ; everything else Other). -/
def gcb (c : Nat) : GcbClass :=
  if c = 0xD then .cr
  else if c = 0xA then .lf
  else if c < 0x20 ∨ c = 0x7F then .control
  else if 0x300 ≤ c ∧ c ≤ 0x36F then .extend
  else if c = 0x200D then .zwj
  else .other

/-- Is there a grapheme-cluster break between adjacent code points `a`
and `b`?  Pairwise core rules of UAX #29: GB3 (CR × LF), GB4 (break
after controls), GB5 (break before controls), GB9 (no break before
Extend or ZWJ), GB999 (otherwise break). -/
def graphemeBreak (a b : Nat) : Bool :=
  match gcb a, gcb b with
  | .cr, .lf => false
  | .control, _ => true
  | .cr, _ => true
  | .lf, _ => true
  | _, .control => true
  | _, .cr => true
  | _, .lf => true
  | _, .extend => false
  | _, .zwj => false
  | _, _ => true

/-- Segmentation of a string (list of code points) into grapheme
clusters: maximal runs with no break between adjacent code points.
Models `UnicodeSegmentation::graphemes(true)`. -/
def graphemes : List Nat → List (List Nat)
  | [] => []
  | [c] => [[c]]
  | a :: b :: rest =>
    if graphemeBreak a b then
      [a] :: graphemes (b :: rest)
    else
      match graphemes (b :: rest) with
      | [] => [[a]]
      | g :: gs => (a :: g) :: gs

/-- Code points of a Lean string literal, for readable concrete inputs. -/
def str (s : String) : List Nat :=
  s.toList.map Char.toNat

/-! ## Highlighting types and options (`src/filetype.rs`, highlighting module) -/

/-- Modelled from the spec: the highlighting module (`hl::Type`) is not
under `src/`; §3 of the spec gives the closed enumeration
`None | Number | Match` used by the classifier in `src/row.rs`. -/
inductive HlType where
  | None
  | Number
  | Match
deriving DecidableEq, Repr

/-- `HighLightingOptions` from `src/filetype.rs`. -/
structure HighLightingOptions where
  numbers : Bool
  strings : Bool
  characters : Bool
deriving DecidableEq, Repr

/-- `HighLightingOptions::default()`: all flags false. -/
def HighLightingOptions.default : HighLightingOptions :=
  { numbers := false, strings := false, characters := false }

/-- `FileType` from `src/filetype.rs`. -/
structure FileType where
  name : List Nat
  hl_opts : HighLightingOptions
deriving DecidableEq, Repr

/-- `FileType::default()`. -/
def FileType.default : FileType :=
  { name := str "No filetype", hl_opts := HighLightingOptions.default }

/-- `FileType::from(file_name)`: `.rs` names get the Rust identity with
all flags enabled; everything else the default. -/
def FileType.fromName (file_name : List Nat) : FileType :=
  if (str ".rs").isSuffixOf file_name then
    { name := str "Rust",
      hl_opts := { numbers := true, strings := true, characters := true } }
  else
    FileType.default

/-- `SearchDirection` from `src/editor.rs` (lines 13–17): the two
directions of the row- and document-level search. -/
inductive SearchDirection where
  | Forward
  | Backward
deriving DecidableEq, Repr

/-- `Position` from `src/editor.rs` (lines 19–23): `x` is the grapheme
column, `y` the row index. -/
structure Position where
  x : Nat
  y : Nat
deriving DecidableEq, Repr

/-! ## Row (`src/row.rs`) -/

/-- `Row` from `src/row.rs`: content, cached grapheme count, highlight
tags. -/
structure Row where
  string : List Nat
  len : Nat
  highlighting : List HlType
deriving DecidableEq, Repr

/-- `Row::default()`. -/
def Row.default : Row :=
  { string := [], len := 0, highlighting := [] }

instance : Inhabited Row := ⟨Row.default⟩

/-- `From<&str> for Row`: stores the content and counts its grapheme
clusters (the constructor sets `len` and `update_len` recomputes the
same value). -/
def Row.fromStr (s : List Nat) : Row :=
  { string := s, len := (graphemes s).length, highlighting := [] }

/-- Loop body of `Row::insert` (the non-append path): walk the grapheme
clusters with their indices, pushing `c` immediately before the cluster
at index `atIdx` and counting one per cluster plus one for `c`.
Returns the rebuilt string and the new length. -/
def insertGo (atIdx : Nat) (c : Nat) (idx : Nat) : List (List Nat) → List Nat × Nat
  | [] => ([], 0)
  | g :: gs =>
    let r := insertGo atIdx c (idx + 1) gs
    if idx = atIdx then (c :: (g ++ r.1), r.2 + 2)
    else (g ++ r.1, r.2 + 1)

/-- `Row::insert(at, c)`: if `at >= len`, push `c` at the end and
increment the cached length; otherwise rebuild via the grapheme walk. -/
def Row.insert (row : Row) (atIdx : Nat) (c : Nat) : Row :=
  if atIdx ≥ row.len then
    { row with string := row.string ++ [c], len := row.len + 1 }
  else
    let r := insertGo atIdx c 0 (graphemes row.string)
    { row with string := r.1, len := r.2 }

/-- Loop body of `Row::delete`: walk the grapheme clusters with their
indices, skipping the cluster at index `atIdx`. -/
def deleteGo (atIdx : Nat) (idx : Nat) : List (List Nat) → List Nat × Nat
  | [] => ([], 0)
  | g :: gs =>
    let r := deleteGo atIdx (idx + 1) gs
    if idx = atIdx then r
    else (g ++ r.1, r.2 + 1)

/-- `Row::delete(at)`: no-op if `at >= len`; otherwise rebuild omitting
the cluster at index `at`. -/
def Row.delete (row : Row) (atIdx : Nat) : Row :=
  if atIdx ≥ row.len then row
  else
    let r := deleteGo atIdx 0 (graphemes row.string)
    { row with string := r.1, len := r.2 }

/-- `Row::append(new)`: concatenate and recompute the length from the
concatenated content (`update_len`). -/
def Row.append (row : Row) (new : Row) : Row :=
  let s := row.string ++ new.string
  { row with string := s, len := (graphemes s).length }

/-- Loop body of `Row::split`: partition the grapheme clusters into the
retained part (`idx ≤ atIdx`) and the remainder (`idx > atIdx`),
counting each side.  Returns (beginning, beginning_len, remainder,
remainder_len). -/
def splitGo (atIdx : Nat) (idx : Nat) : List (List Nat) → List Nat × Nat × List Nat × Nat
  | [] => ([], 0, [], 0)
  | g :: gs =>
    let r := splitGo atIdx (idx + 1) gs
    if idx ≤ atIdx then (g ++ r.1, r.2.1 + 1, r.2.2.1, r.2.2.2)
    else (r.1, r.2.1, g ++ r.2.2.1, r.2.2.2 + 1)

/-- `Row::split(at)`: the original row keeps the clusters with index
`≤ at`; the returned row gets the rest, with empty highlighting. -/
def Row.split (row : Row) (atIdx : Nat) : Row × Row :=
  let r := splitGo atIdx 0 (graphemes row.string)
  ({ row with string := r.1, len := r.2.1 },
   { string := r.2.2.1, len := r.2.2.2, highlighting := [] })

/-! ## Substring search (`Row::find`) -/

/-- `str::find`: offset of the first occurrence of `q` in `s`
(code-point offset modelling the byte offset). -/
def strFind (q : List Nat) : List Nat → Option Nat
  | [] => if q = [] then some 0 else none
  | c :: t =>
    if q.isPrefixOf (c :: t) then some 0
    else (strFind q t).map (· + 1)

/-- `str::rfind`: offset of the last occurrence of `q` in `s`. -/
def strRFind (q : List Nat) : List Nat → Option Nat
  | [] => if q = [] then some 0 else none
  | c :: t =>
    match strRFind q t with
    | some i => some (i + 1)
    | none => if q.isPrefixOf (c :: t) then some 0 else none

/-- `grapheme_indices`: each cluster of the segmentation paired with the
offset of its first code point. -/
def graphemeIndicesGo (ofs : Nat) : List (List Nat) → List (Nat × List Nat)
  | [] => []
  | g :: gs => (ofs, g) :: graphemeIndicesGo (ofs + g.length) gs

/-- The `grapheme_indices` translation loop of `Row::find`: index of the
first cluster whose starting offset equals `bi`, if any. -/
def findGraphemeAt (bi : Nat) : List (Nat × List Nat) → Option Nat
  | [] => none
  | p :: rest =>
    if p.1 = bi then some 0
    else (findGraphemeAt bi rest).map (· + 1)

/-- `Row::find(query, at, direction)`: direction-scoped search within the
row.  Forward searches the cluster range `[at, len)`, backward the range
`[0, at)`; the offset of the raw substring match is translated back to a
cluster index, and `None` is returned when the offset is not the start
of any cluster. -/
def Row.find (row : Row) (query : List Nat) (atIdx : Nat)
    (direction : SearchDirection) : Option Nat :=
  if atIdx > row.len ∨ query = [] then none
  else
    let se := if direction = SearchDirection.Forward then (atIdx, row.len) else (0, atIdx)
    let substring := (((graphemes row.string).drop se.1).take (se.2 - se.1)).flatten
    let matching_byte_index :=
      if direction = SearchDirection.Forward then strFind query substring
      else strRFind query substring
    match matching_byte_index with
    | none => none
    | some bi =>
      (findGraphemeAt bi (graphemeIndicesGo 0 (graphemes substring))).map
        (fun gi => se.1 + gi)

/-! ## Highlight classifier (`Row::highlight`) -/

/-- Rust `char::is_ascii_digit`. -/
def isAsciiDigit (c : Nat) : Bool :=
  decide (0x30 ≤ c ∧ c ≤ 0x39)

/-- Rust `char::is_ascii_punctuation`. -/
def isAsciiPunctuation (c : Nat) : Bool :=
  decide ((0x21 ≤ c ∧ c ≤ 0x2F) ∨ (0x3A ≤ c ∧ c ≤ 0x40) ∨
          (0x5B ≤ c ∧ c ≤ 0x60) ∨ (0x7B ≤ c ∧ c ≤ 0x7E))

/-- Rust `char::is_ascii_whitespace`. -/
def isAsciiWhitespace (c : Nat) : Bool :=
  decide (c = 0x20 ∨ c = 0x9 ∨ c = 0xA ∨ c = 0xC ∨ c = 0xD)

/-- The match-collection loop of `Row::highlight`: repeatedly run the
forward row search, recording each match start and advancing the search
index past the match by the word's grapheme count.  The source loop
terminates because the search index strictly increases and `Row::find`
returns `None` past the row length; `fuel` bounds the recursion in the
model and is chosen large enough to never run out. -/
def collectMatches (row : Row) (word : List Nat) : Nat → Nat → List Nat
  | 0, _ => []
  | fuel + 1, search_index =>
    match Row.find row word search_index SearchDirection.Forward with
    | none => []
    | some m =>
      m :: collectMatches row word fuel (m + (graphemes word).length)

/-- Does the classifier's match branch apply at `index`?  (`word` present
and `index` recorded as a match start.) -/
def hlInMatch (word : Option (List Nat)) (matchList : List Nat) (index : Nat) : Bool :=
  match word with
  | some _ => matchList.contains index
  | none => false

/-- The character walk of `Row::highlight`: one tag per `char` (code
point) in the normal branch; in the match branch one `Match` tag per
grapheme of the word, jumping the index past the match without touching
`prev_is_separator`.  The source loop terminates because the index
strictly increases; `fuel` bounds the recursion in the model. -/
def hlLoop (opts : HighLightingOptions) (word : Option (List Nat))
    (matchList : List Nat) (chars : List Nat) :
    Nat → Nat → Bool → List HlType → List HlType
  | 0, _, _, hl => hl
  | fuel + 1, index, prev_is_separator, hl =>
    match chars.get? index with
    | none => hl
    | some c =>
      if hlInMatch word matchList index then
        let wlen := (graphemes (word.getD [])).length
        hlLoop opts word matchList chars fuel (index + wlen) prev_is_separator
          (hl ++ List.replicate wlen HlType.Match)
      else
        let previous_highlight :=
          if index > 0 then hl.getD (index - 1) HlType.None else HlType.None
        let tag :=
          if opts.numbers &&
              ((isAsciiDigit c &&
                  (prev_is_separator || previous_highlight == HlType.Number)) ||
                (c == 0x2E && previous_highlight == HlType.Number)) then
            HlType.Number
          else
            HlType.None
        hlLoop opts word matchList chars fuel (index + 1)
          (isAsciiPunctuation c || isAsciiWhitespace c) (hl ++ [tag])

/-- `Row::highlight(opts, word)`: collect the search-match starts, then walk the
characters assigning tags.  The fuel arguments strictly dominate the
iteration counts of the two source loops. -/
def Row.highlight (row : Row) (opts : HighLightingOptions)
    (word : Option (List Nat)) : Row :=
  let chars := row.string
  let matchList :=
    match word with
    | some w => collectMatches row w (row.len + 2) 0
    | none => []
  { row with
    highlighting := hlLoop opts word matchList chars (chars.length + 1) 0 true [] }

/-! ## Document (`src/document.rs`) -/

/-- `Document` from `src/document.rs`. -/
structure Document where
  rows : List Row
  file_name : Option (List Nat)
  dirty : Bool
  file_type : FileType
deriving DecidableEq, Repr

/-- `Document::open`, with file IO abstracted: the function receives the
file name (the `Path::new`/`file_name` handling reduced to passing the
name itself) and the content already split into lines.  Note the source
first builds highlighted rows in a loop and then rebuilds `rows` from
scratch without highlighting (line 33 of `src/document.rs` shadows the
loop's result); the shadowing is reproduced faithfully. -/
def Document.openDoc (file_name : List Nat) (lines : List (List Nat)) : Document :=
  let file_type := FileType.fromName file_name
  let rows := lines.map (fun value =>
    (Row.fromStr value).highlight file_type.hl_opts none)
  let rows := lines.map Row.fromStr
  { rows := rows, file_name := some file_name, dirty := false,
    file_type := file_type }

/-- `Document::len` (row count). -/
def Document.length (doc : Document) : Nat :=
  doc.rows.length

/-- `Document::insert_newline`. -/
def Document.insertNewline (doc : Document) (pos : Position) : Document :=
  if pos.y > doc.length then doc
  else if pos.y ≥ doc.length then
    { doc with rows := doc.rows ++ [Row.default] }
  else
    let current_row := doc.rows.getD pos.y Row.default
    let p := current_row.split pos.x
    let cur := p.1.highlight doc.file_type.hl_opts none
    let new_row := p.2.highlight doc.file_type.hl_opts none
    { doc with rows := List.insertIdx (pos.y + 1) new_row (doc.rows.set pos.y cur) }

/-- `Document::insert(at, c)`: silently refuse when `at.y > len`; set
`dirty`; newline delegates to `insert_newline`; `at.y == len` appends a
new single-character row; otherwise insert into the existing row and
reclassify it. -/
def Document.insert (doc : Document) (pos : Position) (c : Nat) : Document :=
  if pos.y > doc.length then doc
  else
    let doc := { doc with dirty := true }
    if c = 0xA then doc.insertNewline pos
    else if pos.y = doc.length then
      let row := (Row.default.insert 0 c).highlight doc.file_type.hl_opts none
      { doc with rows := doc.rows ++ [row] }
    else
      let row :=
        ((doc.rows.getD pos.y Row.default).insert pos.x c).highlight
          doc.file_type.hl_opts none
      { doc with rows := doc.rows.set pos.y row }

/-- `Document::delete(at)`: silently refuse when `at.y >= len`; set
`dirty`; at end-of-row with a following row, merge the next row into the
current one; otherwise delete the grapheme at `at.x` in the target row;
reclassify the touched row. -/
def Document.delete (doc : Document) (pos : Position) : Document :=
  let len := doc.length
  if pos.y ≥ len then doc
  else
    let doc := { doc with dirty := true }
    let row := doc.rows.getD pos.y Row.default
    if pos.x = row.len ∧ pos.y + 1 < len then
      let next_row := doc.rows.getD (pos.y + 1) Row.default
      let merged := (row.append next_row).highlight doc.file_type.hl_opts none
      { doc with rows := ((doc.rows.eraseIdx (pos.y + 1)).set pos.y merged) }
    else
      let row' := (row.delete pos.x).highlight doc.file_type.hl_opts none
      { doc with rows := doc.rows.set pos.y row' }

/-- The row loop of `Document::find`: runs once per row in the scanned
range, advancing the position across row boundaries.  Forward moves to
the next row at column 0; backward moves to the previous row, taking as
its column the length of the row that was just scanned (`position.y` is
still the old row index when `x` is computed — reproduced faithfully). -/
def findGo (doc : Document) (query : List Nat) (direction : SearchDirection) :
    Nat → Position → Option Position
  | 0, _ => none
  | n + 1, pos =>
    match doc.rows.get? pos.y with
    | none => none
    | some row =>
      match row.find query pos.x direction with
      | some x => some { pos with x := x }
      | none =>
        if direction = SearchDirection.Forward then
          findGo doc query direction n { x := 0, y := pos.y + 1 }
        else
          findGo doc query direction n
            { x := (doc.rows.getD pos.y Row.default).len, y := pos.y - 1 }

/-- `Document::find(query, at, direction)`: cross-row search anchored at
`at`; forward scans rows `at.y .. len`, backward scans `at.y` down to
row 0. -/
def Document.find (doc : Document) (query : List Nat) (pos : Position)
    (direction : SearchDirection) : Option Position :=
  if pos.y ≥ doc.rows.length then none
  else
    let se :=
      if direction = SearchDirection.Forward then (pos.y, doc.rows.length)
      else (0, pos.y + 1)
    findGo doc query direction (se.2 - se.1) pos

/-! ## General lemmas about the segmentation model -/

/-- Concatenating the grapheme clusters of a string gives back the
string. -/
theorem flatten_graphemes : ∀ l : List Nat, (graphemes l).flatten = l := by
  intro l
  induction l with
  | nil => rfl
  | cons a rest ih =>
    cases rest with
    | nil => rfl
    | cons b rest' =>
      simp only [graphemes]
      split
      · simp [ih]
      · cases hg : graphemes (b :: rest') with
        | nil => rw [hg] at ih; simp at ih
        | cons g gs =>
          rw [hg] at ih
          simp only [List.flatten_cons] at ih ⊢
          simp [ih]

/-- On content whose code points all have break class Other (e.g. any
printable ASCII), every code point is its own grapheme cluster. -/
theorem graphemes_of_other : ∀ l : List Nat, (∀ c ∈ l, gcb c = GcbClass.other) →
    graphemes l = l.map (fun c => [c]) := by
  intro l
  induction l with
  | nil => intro _; rfl
  | cons a rest ih =>
    intro h
    cases rest with
    | nil => rfl
    | cons b rest' =>
      have ha : gcb a = GcbClass.other := h a (by simp)
      have hb : gcb b = GcbClass.other := h b (by simp)
      have hab : graphemeBreak a b = true := by
        simp [graphemeBreak, ha, hb]
      simp only [graphemes, hab, if_true]
      rw [ih (fun c hc => h c (List.mem_cons_of_mem _ hc))]
      rfl

/-- Flattening a list of singleton clusters gives back the string. -/
theorem flatten_map_singleton : ∀ l : List Nat,
    (l.map (fun c => [c])).flatten = l := by
  intro l
  induction l with
  | nil => rfl
  | cons a rest ih => simp [ih]

/-! ## Bounds on search results, used for the tag-count theorem -/

/-- Every grapheme cluster produced by the segmentation is nonempty. -/
theorem graphemes_ne_nil_mem : ∀ l : List Nat, ∀ g ∈ graphemes l, g ≠ [] := by
  intro l
  induction l with
  | nil => intro g hg; simp [graphemes] at hg
  | cons a rest ih =>
    cases rest with
    | nil =>
      intro g hg
      simp only [graphemes, List.mem_singleton] at hg
      subst hg
      simp
    | cons b rest' =>
      intro g hg
      simp only [graphemes] at hg
      split at hg
      · rcases List.mem_cons.mp hg with rfl | hg2
        · simp
        · exact ih g hg2
      · cases hgy : graphemes (b :: rest') with
        | nil =>
          rw [hgy] at hg
          simp only [List.mem_singleton] at hg
          subst hg
          simp
        | cons g0 gs0 =>
          rw [hgy] at hg
          rcases List.mem_cons.mp hg with rfl | hg2
          · simp
          · exact ih g (by rw [hgy]; exact List.mem_cons_of_mem _ hg2)

/-- A list of nonempty chunks is no longer than its flattening. -/
theorem length_le_length_flatten : ∀ L : List (List Nat),
    (∀ g ∈ L, g ≠ []) → L.length ≤ L.flatten.length := by
  intro L
  induction L with
  | nil => intro _; simp
  | cons g L ih =>
    intro h
    have hg : 1 ≤ g.length := by
      have hne := h g (by simp)
      cases g with
      | nil => simp at hne
      | cons x xs => simp
    have hrec := ih (fun g' hg' => h g' (List.mem_cons_of_mem _ hg'))
    simp only [List.flatten_cons, List.length_append, List.length_cons]
    omega

/-- A string has at most as many grapheme clusters as code points. -/
theorem graphemes_length_le (l : List Nat) : (graphemes l).length ≤ l.length := by
  have h := length_le_length_flatten (graphemes l) (graphemes_ne_nil_mem l)
  rwa [flatten_graphemes] at h

/-- A nonempty string segments into at least one cluster. -/
theorem graphemes_ne_nil (l : List Nat) (h : l ≠ []) : graphemes l ≠ [] := by
  intro hg
  apply h
  have hfl := flatten_graphemes l
  rw [hg] at hfl
  simpa using hfl.symm

/-- A successful `str::find` leaves the whole query inside the searched
string: the hit offset plus the query length is bounded by the string
length. -/
theorem strFind_bound (q : List Nat) : ∀ (s : List Nat) (bi : Nat),
    strFind q s = some bi → bi + q.length ≤ s.length := by
  intro s
  induction s with
  | nil =>
    intro bi h
    simp only [strFind] at h
    split at h
    case isTrue hq =>
      injection h with h1
      simp [hq]
      omega
    case isFalse => exact absurd h (by simp)
  | cons c t ih =>
    intro bi h
    simp only [strFind] at h
    split at h
    case isTrue hpre =>
      injection h with h1
      have hle := List.IsPrefix.length_le (List.isPrefixOf_iff_prefix.mp hpre)
      simp only [List.length_cons] at hle ⊢
      omega
    case isFalse =>
      cases hrec : strFind q t with
      | none => rw [hrec] at h; simp at h
      | some bj =>
        rw [hrec] at h
        simp at h
        have hb := ih bj hrec
        simp only [List.length_cons]
        omega

/-- In the offset-to-cluster translation over nonempty clusters, the
found cluster index never exceeds the offset being looked up (each
cluster advances the offset by at least one). -/
theorem findGraphemeAt_ge (bi : Nat) : ∀ (L : List (List Nat)) (ofs j : Nat),
    (∀ g ∈ L, g ≠ []) →
    findGraphemeAt bi (graphemeIndicesGo ofs L) = some j → ofs + j ≤ bi := by
  intro L
  induction L with
  | nil => intro ofs j _ h; simp [graphemeIndicesGo, findGraphemeAt] at h
  | cons g L ih =>
    intro ofs j hne h
    simp only [graphemeIndicesGo, findGraphemeAt] at h
    split at h
    case isTrue hofs =>
      injection h with h1
      omega
    case isFalse hofs =>
      cases hrec : findGraphemeAt bi (graphemeIndicesGo (ofs + g.length) L) with
      | none => rw [hrec] at h; simp at h
      | some j0 =>
        rw [hrec] at h
        simp at h
        have hge := ih (ofs + g.length) j0
          (fun g' h' => hne g' (List.mem_cons_of_mem _ h')) hrec
        have hg1 : 1 ≤ g.length := by
          have hne0 := hne g (by simp)
          cases g with
          | nil => simp at hne0
          | cons x xs => simp
        omega

/-- A forward `Row::find` hit on a row with an accurate cached length
leaves room in the content for the query's grapheme clusters: the hit
cluster index plus the query's cluster count is bounded by the row's
code-point count. -/
theorem rowFind_forward_bound (row : Row) (q : List Nat) (i m : Nat)
    (hwf : row.len = (graphemes row.string).length)
    (h : Row.find row q i SearchDirection.Forward = some m) :
    m + (graphemes q).length ≤ row.string.length := by
  unfold Row.find at h
  by_cases hguard : i > row.len ∨ q = []
  · rw [if_pos hguard] at h
    cases h
  · rw [if_neg hguard] at h
    push_neg at hguard
    obtain ⟨hi, hq⟩ := hguard
    simp only [reduceIte] at h
    have htk : ((graphemes row.string).drop i).take (row.len - i)
        = (graphemes row.string).drop i := by
      apply List.take_of_length_le
      rw [List.length_drop, ← hwf]
    rw [htk] at h
    cases hfind : strFind q ((graphemes row.string).drop i).flatten with
    | none => rw [hfind] at h; cases h
    | some bi =>
      rw [hfind] at h
      dsimp only at h
      cases hfga : findGraphemeAt bi
          (graphemeIndicesGo 0 (graphemes ((graphemes row.string).drop i).flatten)) with
      | none => rw [hfga] at h; cases h
      | some gi =>
        rw [hfga] at h
        simp at h
        have h1b := strFind_bound q _ bi hfind
        have h2b := findGraphemeAt_ge bi
          (graphemes ((graphemes row.string).drop i).flatten) 0 gi
          (graphemes_ne_nil_mem _) hfga
        have h3b := graphemes_length_le q
        have hdecomp : row.string.length
            = ((graphemes row.string).take i).flatten.length
              + ((graphemes row.string).drop i).flatten.length := by
          calc row.string.length
              = (graphemes row.string).flatten.length := by
                rw [flatten_graphemes]
            _ = (((graphemes row.string).take i)
                  ++ ((graphemes row.string).drop i)).flatten.length := by
                rw [List.take_append_drop]
            _ = _ := by rw [List.flatten_append, List.length_append]
        have htklen : i ≤ ((graphemes row.string).take i).flatten.length := by
          have hne : ∀ g ∈ (graphemes row.string).take i, g ≠ [] := fun g hg =>
            graphemes_ne_nil_mem row.string g
              (List.take_subset i (graphemes row.string) hg)
          have hfl := length_le_length_flatten _ hne
          have hlt : ((graphemes row.string).take i).length = i := by
            rw [List.length_take]
            rw [hwf] at hi
            omega
          omega
        omega

/-- Every match start recorded by the classifier's collection loop
leaves room for the word: the start plus the word's cluster count is
bounded by the row's code-point count. -/
theorem collectMatches_bound (row : Row) (w : List Nat)
    (hwf : row.len = (graphemes row.string).length) :
    ∀ (fuel i : Nat), ∀ m ∈ collectMatches row w fuel i,
      m + (graphemes w).length ≤ row.string.length := by
  intro fuel
  induction fuel with
  | zero => intro i m hm; simp [collectMatches] at hm
  | succ n ih =>
    intro i m hm
    simp only [collectMatches] at hm
    cases hfind : Row.find row w i SearchDirection.Forward with
    | none => rw [hfind] at hm; simp at hm
    | some m0 =>
      rw [hfind] at hm
      rcases List.mem_cons.mp hm with rfl | hm2
      · exact rowFind_forward_bound row w i m hwf hfind
      · exact ih _ m hm2

/-- With an empty search word the collection loop records nothing
(`Row::find` rejects an empty query immediately). -/
theorem collectMatches_nil_query (row : Row) (fuel i : Nat) :
    collectMatches row [] fuel i = [] := by
  cases fuel with
  | zero => rfl
  | succ n => simp [collectMatches, Row.find]

/-- With a nonempty word whose recorded match starts all leave room for
the word, the classifier walk produces exactly one tag per code point:
both branches keep the tag count equal to the index, and the index never
jumps past the end. -/
theorem hlLoop_some_length (opts : HighLightingOptions) (w : List Nat)
    (ml : List Nat) (chars : List Nat)
    (hml : ∀ m ∈ ml, m + (graphemes w).length ≤ chars.length)
    (hw : 1 ≤ (graphemes w).length) :
    ∀ (fuel index : Nat) (prevSep : Bool) (hl : List HlType),
    hl.length = index → index ≤ chars.length → chars.length ≤ index + fuel →
    (hlLoop opts (some w) ml chars fuel index prevSep hl).length
      = chars.length := by
  intro fuel
  induction fuel with
  | zero =>
    intro index prevSep hl h1 h2 h3
    simp only [hlLoop]
    omega
  | succ n ih =>
    intro index prevSep hl h1 h2 h3
    simp only [hlLoop]
    cases hc : chars.get? index with
    | none =>
      have hlen : chars.length ≤ index := List.get?_eq_none.mp hc
      simp
      omega
    | some c =>
      have hidx : index < chars.length := by
        by_contra hcon
        push_neg at hcon
        rw [List.get?_eq_none.mpr hcon] at hc
        exact Option.noConfusion hc
      simp only [hlInMatch, Option.getD_some]
      by_cases hmem : ml.contains index
      · rw [if_pos hmem]
        apply ih
        · simp [h1]
        · exact hml index (List.mem_of_elem_eq_true hmem)
        · omega
      · rw [if_neg hmem]
        apply ih
        · simp [h1]
        · omega
        · omega

/-! ## Concrete example documents used in witnesses and counterexamples -/

/-- A one-row document containing `"a"`, not dirty. -/
def docA : Document :=
  { rows := [Row.fromStr (str "a")], file_name := none, dirty := false,
    file_type := FileType.default }

/-- A two-row document `["ab", "xxxx"]`, not dirty. -/
def docAB : Document :=
  { rows := [Row.fromStr (str "ab"), Row.fromStr (str "xxxx")],
    file_name := none, dirty := false, file_type := FileType.default }


/-- The split loop partitions the cluster list at index `atIdx`
(inclusive on the left), independently of the running index offset. -/
theorem splitGo_eq (atIdx : Nat) : ∀ (gs : List (List Nat)) (idx : Nat),
    splitGo atIdx idx gs =
      ((gs.take (atIdx + 1 - idx)).flatten, (gs.take (atIdx + 1 - idx)).length,
       (gs.drop (atIdx + 1 - idx)).flatten, (gs.drop (atIdx + 1 - idx)).length) := by
  intro gs
  induction gs with
  | nil => intro idx; simp [splitGo]
  | cons g gs' ih =>
    intro idx
    simp only [splitGo, ih (idx + 1)]
    by_cases h : idx ≤ atIdx
    · rw [if_pos h]
      have harith : atIdx + 1 - idx = (atIdx + 1 - (idx + 1)) + 1 := by omega
      rw [harith]
      simp [List.take_succ_cons, List.drop_succ_cons]
    · rw [if_neg h]
      have h1 : atIdx + 1 - idx = 0 := by omega
      have h2 : atIdx + 1 - (idx + 1) = 0 := by omega
      rw [h1, h2]
      simp

/-- Past the insertion index, the insert loop just copies and counts. -/
theorem insertGo_gt (atIdx c : Nat) : ∀ (gs : List (List Nat)) (idx : Nat),
    atIdx < idx → insertGo atIdx c idx gs = (gs.flatten, gs.length) := by
  intro gs
  induction gs with
  | nil => intro idx _; simp [insertGo]
  | cons g gs' ih =>
    intro idx h
    simp only [insertGo, ih (idx + 1) (by omega)]
    rw [if_neg (by omega)]
    simp

/-- The insert loop splices the new code point immediately before the
cluster at index `atIdx` and counts one per cluster plus one. -/
theorem insertGo_eq (atIdx c : Nat) : ∀ (gs : List (List Nat)) (idx : Nat),
    idx ≤ atIdx → atIdx - idx < gs.length →
    insertGo atIdx c idx gs =
      ((gs.take (atIdx - idx)).flatten ++ c :: (gs.drop (atIdx - idx)).flatten,
       gs.length + 1) := by
  intro gs
  induction gs with
  | nil => intro idx _ h2; simp at h2
  | cons g gs' ih =>
    intro idx h1 h2
    by_cases h : idx = atIdx
    · subst h
      simp only [insertGo, if_pos, eq_self_iff_true, if_true]
      rw [insertGo_gt idx c gs' (idx + 1) (by omega)]
      simp [Nat.sub_self]
    · have hlt : idx < atIdx := by omega
      simp only [insertGo]
      rw [if_neg h, ih (idx + 1) (by omega) (by simp at h2 ⊢; omega)]
      have harith : atIdx - idx = (atIdx - (idx + 1)) + 1 := by omega
      rw [harith]
      simp [List.take_succ_cons, List.drop_succ_cons]

/-- Past the deletion index, the delete loop just copies and counts. -/
theorem deleteGo_gt (atIdx : Nat) : ∀ (gs : List (List Nat)) (idx : Nat),
    atIdx < idx → deleteGo atIdx idx gs = (gs.flatten, gs.length) := by
  intro gs
  induction gs with
  | nil => intro idx _; simp [deleteGo]
  | cons g gs' ih =>
    intro idx h
    simp only [deleteGo, ih (idx + 1) (by omega)]
    rw [if_neg (by omega)]
    simp

/-- The delete loop omits exactly the cluster at index `atIdx` and
counts one per remaining cluster. -/
theorem deleteGo_eq (atIdx : Nat) : ∀ (gs : List (List Nat)) (idx : Nat),
    idx ≤ atIdx → atIdx - idx < gs.length →
    deleteGo atIdx idx gs =
      ((gs.take (atIdx - idx)).flatten ++ (gs.drop (atIdx - idx + 1)).flatten,
       gs.length - 1) := by
  intro gs
  induction gs with
  | nil => intro idx _ h2; simp at h2
  | cons g gs' ih =>
    intro idx h1 h2
    by_cases h : idx = atIdx
    · subst h
      simp only [deleteGo, if_pos, eq_self_iff_true, if_true]
      rw [deleteGo_gt idx gs' (idx + 1) (by omega)]
      simp [Nat.sub_self]
    · have hlt : idx < atIdx := by omega
      have hrec : atIdx - (idx + 1) < gs'.length := by simp at h2; omega
      simp only [deleteGo]
      rw [if_neg h, ih (idx + 1) (by omega) hrec]
      have harith : atIdx - idx = (atIdx - (idx + 1)) + 1 := by omega
      rw [harith]
      simp [List.take_succ_cons, List.drop_succ_cons]
      omega

/-- When the match branch never fires (no word, or an empty match list)
the classifier walk pushes exactly one tag per code point: from index
`index` it appends `chars.length - index` tags, given enough fuel. -/
theorem hlLoop_nomatch_length (opts : HighLightingOptions)
    (word : Option (List Nat)) (ml : List Nat) (chars : List Nat)
    (hni : ∀ i, hlInMatch word ml i = false) :
    ∀ (fuel index : Nat) (prevSep : Bool) (hl : List HlType),
    chars.length ≤ index + fuel →
    (hlLoop opts word ml chars fuel index prevSep hl).length
      = hl.length + (chars.length - index) := by
  intro fuel
  induction fuel with
  | zero =>
    intro index prevSep hl h
    simp only [hlLoop]
    omega
  | succ n ih =>
    intro index prevSep hl h
    simp only [hlLoop]
    cases hc : chars.get? index with
    | none =>
      have hlen : chars.length ≤ index := List.get?_eq_none.mp hc
      simp
      omega
    | some c =>
      have hidx : index < chars.length := by
        by_contra hcon
        push_neg at hcon
        rw [List.get?_eq_none.mpr hcon] at hc
        exact Option.noConfusion hc
      simp only [hni index]
      rw [if_neg (show ¬(false = true) by simp)]
      rw [ih (index + 1) _ _ (by omega)]
      simp only [List.length_append, List.length_cons, List.length_nil]
      omega

/-- `Document::insert_newline` never touches the dirty flag. -/
theorem insertNewline_dirty (doc : Document) (pos : Position) :
    (doc.insertNewline pos).dirty = doc.dirty := by
  unfold Document.insertNewline
  split
  · rfl
  · split
    · rfl
    · rfl

/-! ## Claim theorems -/

/-- C1: `Document::open` is claimed to return rows that are already
classified; in fact the highlighted rows built by the first loop are
discarded when `rows` is rebuilt (the shadowing on line 33 of
`src/document.rs`), so a freshly opened `"a.rs"` file with single line
`"1"` has an empty tag list, while the Highlight Classifier on that row
with the path-derived FileType and no word produces `[Number]`. -/
theorem open_discards_highlighting :
    ((Document.openDoc (str "a.rs") [[0x31]]).rows.map Row.highlighting) = [[]] ∧
    ((Row.fromStr [0x31]).highlight (FileType.fromName (str "a.rs")).hl_opts
        none).highlighting = [HlType.Number] := by
  constructor
  · rfl
  · rfl

/-- C2 counterexample: deleting at position `(x = 1, y = 0)` in the
one-row document `["a"]` leaves every row's content byte-for-byte
unchanged (`Row::delete` is a no-op at `x ≥ len` and no merge applies),
yet flips `dirty` from `false` to `true` — refuting the claim that a
content-preserving mutation leaves `dirty` untouched. -/
theorem delete_noop_sets_dirty_cex :
    ((docA.delete ⟨1, 0⟩).rows.map Row.string = docA.rows.map Row.string) ∧
    docA.dirty = false ∧ (docA.delete ⟨1, 0⟩).dirty = true := by
  refine ⟨rfl, rfl, rfl⟩

/-- C2 amended: `dirty` is left unchanged exactly when the mutation is
rejected by the row-bounds check (`insert`: `at.y > len`; `delete`:
`at.y ≥ len`); every position passing that check sets `dirty := true`,
even when (as in the counterexample) a delete at a column at or beyond
the row's length changes no content. -/
theorem dirty_set_iff_row_in_range (doc : Document) (pos : Position) (c : Nat) :
    (pos.y ≥ doc.length → doc.delete pos = doc) ∧
    (pos.y < doc.length → (doc.delete pos).dirty = true) ∧
    (pos.y > doc.length → doc.insert pos c = doc) ∧
    (pos.y ≤ doc.length → (doc.insert pos c).dirty = true) := by
  refine ⟨fun h => ?_, fun h => ?_, fun h => ?_, fun h => ?_⟩
  · unfold Document.delete
    rw [if_pos h]
  · unfold Document.delete
    rw [if_neg (by omega)]
    dsimp only
    split
    · rfl
    · rfl
  · unfold Document.insert
    rw [if_pos h]
  · unfold Document.insert
    rw [if_neg (by omega)]
    dsimp only
    split
    · rw [insertNewline_dirty]
    · split
      · rfl
      · rfl

/-- Witness for C2 amended, at the concrete one-row document `["a"]`. -/
theorem dirty_set_iff_row_in_range_witness :
    ((5 : Nat) ≥ docA.length ∧ docA.delete ⟨0, 5⟩ = docA) ∧
    ((0 : Nat) < docA.length ∧ (docA.delete ⟨0, 0⟩).dirty = true) ∧
    ((0 : Nat) ≤ docA.length ∧ (docA.insert ⟨0, 0⟩ 0x62).dirty = true) :=
  ⟨⟨by decide, (dirty_set_iff_row_in_range docA ⟨0, 5⟩ 0x62).1 (by decide)⟩,
   ⟨by decide, (dirty_set_iff_row_in_range docA ⟨0, 0⟩ 0x62).2.1 (by decide)⟩,
   ⟨by decide, (dirty_set_iff_row_in_range docA ⟨0, 0⟩ 0x62).2.2.2 (by decide)⟩⟩

/-- C3: backward `Document::find` is claimed to search each prior row
from that prior row's own grapheme length; the code instead computes the
next start column from the row it has just scanned (`position.y` is
still the old index when `x` is evaluated).  On `["ab", "xxxx"]`,
searching `"ab"` backward from `(x = 4, y = 1)` hands start column 4 to
row 0 (whose length is 2), so `Row::find` rejects it (`at > len`) and
the document search returns `none` — even though searching row 0 from
its own length finds the match at column 0. -/
theorem backward_find_misses_prior_row :
    Document.find docAB (str "ab") ⟨4, 1⟩ SearchDirection.Backward = none ∧
    Row.find (docAB.rows.getD 0 Row.default) (str "ab")
      ((docAB.rows.getD 0 Row.default).len) SearchDirection.Backward
      = some 0 := by
  refine ⟨rfl, rfl⟩

/-- C4 counterexample: with numbers enabled and no word, position 5 of
`"12.34.56"` (the second dot) IS tagged `Number` (its previous tag is
`Number`, and the classifier tags any `.` after a `Number`), refuting
the claim that only positions 0–4 and 6–7 are tagged. -/
theorem highlight_second_dot_number_cex :
    ((Row.fromStr (str "12.34.56")).highlight
        { numbers := true, strings := false, characters := false }
        none).highlighting.getD 5 HlType.None = HlType.Number := by
  rfl

/-- C4 amended: running the classifier with numbers enabled and no word
on `"12.34.56"` tags every position 0–7 `Number` — one contiguous run;
each dot follows a `Number` tag and so is itself tagged `Number`. -/
theorem highlight_decimal_all_number :
    ((Row.fromStr (str "12.34.56")).highlight
        { numbers := true, strings := false, characters := false }
        none).highlighting = List.replicate 8 HlType.Number := by
  rfl

/-- C5 counterexample: `Row::insert` does not recompute the cached
grapheme count.  Inserting the combining acute accent U+0301 at the end
of `Row::from("a")` takes the push path, which blindly increments `len`
to 2, while the resulting content `"a\u{301}"` is a single grapheme
cluster — the cache drifts from the true value. -/
theorem insert_len_drift_cex :
    ((Row.fromStr [0x61]).insert 1 0x301).len = 2 ∧
    (graphemes (((Row.fromStr [0x61]).insert 1 0x301).string)).length = 1 := by
  refine ⟨rfl, rfl⟩

/-- C5 amended: the cached count equals the true cluster count after
construction and after `append` (both recompute it from the content),
but `insert` maintains it incrementally: the end-push path adds one, so
inserting a character that merges with the adjacent cluster (a combining
mark) leaves `len` strictly above the true cluster count. -/
theorem len_recomputed_from_append_only :
    (∀ s : List Nat, (Row.fromStr s).len = (graphemes (Row.fromStr s).string).length) ∧
    (∀ row new : Row,
      (row.append new).len = (graphemes (row.append new).string).length) ∧
    ((Row.fromStr [0x61]).insert 1 0x301).len
      ≠ (graphemes (((Row.fromStr [0x61]).insert 1 0x301).string)).length :=
  ⟨fun _ => rfl, fun _ _ => rfl, by decide⟩

/-- C6 counterexample: `Row::highlight` walks `chars()` (code points),
not grapheme clusters: on the single-cluster content `"a\u{301}"`
(2 code points) it produces 2 tags while the row has 1 grapheme —
refuting "exactly one tag per grapheme cluster". -/
theorem highlight_tags_per_char_cex :
    ((Row.fromStr [0x61, 0x301]).highlight HighLightingOptions.default
        none).highlighting.length = 2 ∧
    (Row.fromStr [0x61, 0x301]).len = 1 := by
  refine ⟨rfl, rfl⟩

/-- C6 amended: immediately after `Row::highlight` — for every content,
every highlighting options and every optional search word —
`highlight_tags` contains exactly one tag per code point (`char`) of the
content, which coincides with the grapheme count only when every cluster
is a single code point.  (The match branch pushes one tag per word
grapheme while advancing the index by the same amount, and every
recorded match start leaves room for the word.) -/
theorem highlight_tag_count (s : List Nat) (opts : HighLightingOptions)
    (word : Option (List Nat)) :
    ((Row.fromStr s).highlight opts word).highlighting.length = s.length := by
  cases word with
  | none =>
    unfold Row.highlight Row.fromStr
    simp only []
    rw [hlLoop_nomatch_length opts none [] s (fun i => rfl)
      (s.length + 1) 0 true [] (by omega)]
    simp
  | some w =>
    by_cases hw : w = []
    · subst hw
      unfold Row.highlight Row.fromStr
      simp only []
      rw [collectMatches_nil_query]
      rw [hlLoop_nomatch_length opts (some []) [] s (fun i => rfl)
        (s.length + 1) 0 true [] (by omega)]
      simp
    · have hw1 : 1 ≤ (graphemes w).length := by
        cases hgw : graphemes w with
        | nil => exact absurd hgw (graphemes_ne_nil w hw)
        | cons g gs => simp
      unfold Row.highlight Row.fromStr
      simp only []
      have hml : ∀ m ∈ collectMatches
          { string := s, len := (graphemes s).length, highlighting := [] }
          w ((graphemes s).length + 2) 0,
          m + (graphemes w).length ≤ s.length := by
        intro m hm
        exact collectMatches_bound _ w rfl _ _ m hm
      exact hlLoop_some_length opts w _ s hml hw1 (s.length + 1) 0 true []
        rfl (by omega) (by omega)

/-- C7: `Row::split(at)` keeps every grapheme cluster with index `≤ at`
in the original row (content and count) and moves every cluster with
index `> at` to the returned row — in particular the cluster at index
`at` itself stays on the original line. -/
theorem split_keeps_at_in_original (row : Row) (atIdx : Nat)
    (h : atIdx < row.len) :
    (row.split atIdx).1.string = ((graphemes row.string).take (atIdx + 1)).flatten ∧
    (row.split atIdx).1.len = ((graphemes row.string).take (atIdx + 1)).length ∧
    (row.split atIdx).2.string = ((graphemes row.string).drop (atIdx + 1)).flatten ∧
    (row.split atIdx).2.len = ((graphemes row.string).drop (atIdx + 1)).length := by
  unfold Row.split
  rw [splitGo_eq]
  simp

/-- Witness for C7 at `Row::from("abc")`, split index 1. -/
theorem split_keeps_at_in_original_witness :
    (1 : Nat) < (Row.fromStr (str "abc")).len ∧
    ((Row.fromStr (str "abc")).split 1).1.string
      = ((graphemes (Row.fromStr (str "abc")).string).take 2).flatten ∧
    ((Row.fromStr (str "abc")).split 1).1.len
      = ((graphemes (Row.fromStr (str "abc")).string).take 2).length ∧
    ((Row.fromStr (str "abc")).split 1).2.string
      = ((graphemes (Row.fromStr (str "abc")).string).drop 2).flatten ∧
    ((Row.fromStr (str "abc")).split 1).2.len
      = ((graphemes (Row.fromStr (str "abc")).string).drop 2).length :=
  ⟨by decide, split_keeps_at_in_original (Row.fromStr (str "abc")) 1 (by decide)⟩

/-- C8: for every row and every in-range split index, `split(at)`
followed by `append` of the returned row restores the content exactly
and the grapheme count (recomputed by `append`) to the grapheme count of
the original content. -/
theorem split_append_roundtrip (row : Row) (atIdx : Nat)
    (h1 : atIdx < row.len) :
    (((row.split atIdx).1).append ((row.split atIdx).2)).string = row.string ∧
    (((row.split atIdx).1).append ((row.split atIdx).2)).len
      = (graphemes row.string).length := by
  unfold Row.split Row.append
  rw [splitGo_eq]
  simp only [Nat.sub_zero]
  constructor
  · rw [← List.flatten_append, List.take_append_drop, flatten_graphemes]
  · rw [← List.flatten_append, List.take_append_drop, flatten_graphemes]

/-- Witness for C8 at `Row::from("abc")`, split index 0. -/
theorem split_append_roundtrip_witness :
    (0 : Nat) < (Row.fromStr (str "abc")).len ∧
    ((((Row.fromStr (str "abc")).split 0).1).append
        (((Row.fromStr (str "abc")).split 0).2)).string
      = (Row.fromStr (str "abc")).string ∧
    ((((Row.fromStr (str "abc")).split 0).1).append
        (((Row.fromStr (str "abc")).split 0).2)).len
      = (graphemes (Row.fromStr (str "abc")).string).length :=
  ⟨by decide,
   (split_append_roundtrip (Row.fromStr (str "abc")) 0 (by decide)).1,
   (split_append_roundtrip (Row.fromStr (str "abc")) 0 (by decide)).2⟩

/-- C9 counterexample: inserting the combining acute accent U+0301 at
grapheme position 1 of `Row::from("ab")` (in-bounds, `len = 2`) and then
deleting at position 1 yields content `"a\u{301}"`, not the original
`"ab"`: the inserted mark merges with the preceding cluster, so the
delete removes the following `"b"` instead — refuting identity for
arbitrary characters. -/
theorem insert_delete_combining_cex :
    (((Row.fromStr (str "ab")).insert 1 0x301).delete 1).string = [0x61, 0x301] ∧
    (Row.fromStr (str "ab")).string = [0x61, 0x62] := by
  refine ⟨rfl, rfl⟩

/-- C9 amended: `insert` then `delete` at the same in-bounds grapheme
position is identity on content and cached count whenever the inserted
character does not interact with the content under grapheme clustering —
here, when every code point of the row and the inserted code point carry
the plain (Other) break class, as all printable ASCII does.  (The
counterexample shows it fails for a merging character such as a
combining mark.) -/
theorem insert_delete_identity_no_merge (row : Row) (c atIdx : Nat)
    (hs : ∀ x ∈ row.string, gcb x = GcbClass.other)
    (hc : gcb c = GcbClass.other)
    (hwf : row.len = (graphemes row.string).length)
    (hlt : atIdx < row.len) :
    ((row.insert atIdx c).delete atIdx).string = row.string ∧
    ((row.insert atIdx c).delete atIdx).len = row.len := by
  have hg : graphemes row.string = row.string.map (fun x => [x]) :=
    graphemes_of_other row.string hs
  have hglen : (graphemes row.string).length = row.string.length := by
    rw [hg]; simp
  have hlen : row.len = row.string.length := by rw [hwf, hglen]
  have hins : row.insert atIdx c =
      { row with
        string := row.string.take atIdx ++ c :: row.string.drop atIdx,
        len := row.string.length + 1 } := by
    unfold Row.insert
    rw [if_neg (by omega)]
    dsimp only
    rw [insertGo_eq atIdx c (graphemes row.string) 0 (by omega) (by omega)]
    simp only [Nat.sub_zero, hg, ← List.map_take, ← List.map_drop,
      flatten_map_singleton, List.length_map]
  have hs' : ∀ x ∈ row.string.take atIdx ++ c :: row.string.drop atIdx,
      gcb x = GcbClass.other := by
    intro x hx
    rcases List.mem_append.mp hx with hx1 | hx2
    · exact hs x (List.take_subset _ _ hx1)
    · rcases List.mem_cons.mp hx2 with rfl | hx3
      · exact hc
      · exact hs x (List.drop_subset _ _ hx3)
  have hg' : graphemes (row.string.take atIdx ++ c :: row.string.drop atIdx)
      = (row.string.take atIdx ++ c :: row.string.drop atIdx).map (fun x => [x]) :=
    graphemes_of_other _ hs'
  have hs'len : (row.string.take atIdx ++ c :: row.string.drop atIdx).length
      = row.string.length + 1 := by
    simp only [List.length_append, List.length_cons, List.length_take,
      List.length_drop]
    omega
  have hAlen : (row.string.take atIdx).length = atIdx := by
    simp only [List.length_take]
    omega
  have htakeGen : ∀ (A B : List Nat), A.length = atIdx → (A ++ B).take atIdx = A := by
    intro A B hA
    rw [← hA]
    exact List.take_left _ _
  have hdropGen : ∀ (A B : List Nat), A.length = atIdx + 1 →
      (A ++ B).drop (atIdx + 1) = B := by
    intro A B hA
    rw [← hA]
    exact List.drop_left _ _
  have htake : (row.string.take atIdx ++ c :: row.string.drop atIdx).take atIdx
      = row.string.take atIdx := htakeGen _ _ hAlen
  have hdrop : (row.string.take atIdx ++ c :: row.string.drop atIdx).drop (atIdx + 1)
      = row.string.drop atIdx := by
    have hsplit : row.string.take atIdx ++ c :: row.string.drop atIdx
        = (row.string.take atIdx ++ [c]) ++ row.string.drop atIdx := by
      simp
    rw [hsplit]
    exact hdropGen _ _ (by simp [hAlen])
  have hdel : (row.insert atIdx c).delete atIdx
      = { row with string := row.string.take atIdx ++ row.string.drop atIdx,
                   len := row.string.length + 1 - 1 } := by
    rw [hins]
    unfold Row.delete
    rw [if_neg (by dsimp only; omega)]
    dsimp only
    rw [deleteGo_eq atIdx (graphemes _) 0 (by omega)
      (by rw [hg', List.length_map, hs'len]; omega)]
    simp only [Nat.sub_zero, hg', ← List.map_take, ← List.map_drop,
      flatten_map_singleton, List.length_map, htake, hdrop, hs'len]
  rw [hdel]
  constructor
  · simp [List.take_append_drop]
  · simp only [Nat.add_sub_cancel]
    omega

/-- Witness for C9 amended at `Row::from("ab")`, inserting `'c'` at
position 1. -/
theorem insert_delete_identity_no_merge_witness :
    (∀ x ∈ (Row.fromStr (str "ab")).string, gcb x = GcbClass.other) ∧
    gcb 0x63 = GcbClass.other ∧
    (Row.fromStr (str "ab")).len = (graphemes (Row.fromStr (str "ab")).string).length ∧
    (1 : Nat) < (Row.fromStr (str "ab")).len ∧
    (((Row.fromStr (str "ab")).insert 1 0x63).delete 1).string
      = (Row.fromStr (str "ab")).string ∧
    (((Row.fromStr (str "ab")).insert 1 0x63).delete 1).len
      = (Row.fromStr (str "ab")).len :=
  ⟨by decide, by decide, by decide, by decide,
   (insert_delete_identity_no_merge (Row.fromStr (str "ab")) 0x63 1
     (by decide) (by decide) (by decide) (by decide)).1,
   (insert_delete_identity_no_merge (Row.fromStr (str "ab")) 0x63 1
     (by decide) (by decide) (by decide) (by decide)).2⟩

/-- C10: `Row::find` can miss a genuine substring occurrence.  On the
single-cluster content `"a\u{301}"`, the query `"\u{301}"` occurs at
offset 1 of the searched span, but offset 1 is not the start of any
grapheme cluster, so the offset-to-cluster translation finds nothing and
the search reports no match. -/
theorem find_misses_mid_cluster_match :
    Row.find (Row.fromStr [0x61, 0x301]) [0x301] 0 SearchDirection.Forward = none ∧
    strFind [0x301] (Row.fromStr [0x61, 0x301]).string = some 1 := by
  refine ⟨rfl, rfl⟩

end RText
